import Mathlib

/-!
# Verification of `ci-probe` `src/config.rs`

A shallow embedding of the version-comparison and task-state-store logic of
`src/config.rs`, together with proofs of the specification's claims about it.

Rust strings are modelled as Lean `String` (with `·.data : List Char` for
character-level reasoning); `HashMap<String, Vec<String>>` is modelled as an
association list `List (String × List String)` built by insertion (a later
insert of an existing key replaces the earlier value), with the iteration
order of the map made explicit as the order of the list.
-/

set_option autoImplicit false

namespace CiProbe

/-- Rust's `str::split(sep)` on a character pattern, at the level of
`List Char`: `""` splits to `[[]]`, `":"` splits to `[[], []]`. -/
def splitChar (sep : Char) : List Char → List (List Char)
  | [] => [[]]
  | c :: cs =>
    if c = sep then
      [] :: splitChar sep cs
    else
      match splitChar sep cs with
      | [] => [[c]]
      | p :: ps => (c :: p) :: ps

/-- Rust's `str::to_lowercase`, character by character.  All task names and
version strings in this development are ASCII, where `Char.toLower` agrees
with the Rust function. -/
def rustToLowercase (s : String) : String :=
  String.mk (s.data.map Char.toLower)

/-- An uppercase ASCII letter (`A`–`Z`). -/
def isAsciiUpper (c : Char) : Bool :=
  65 ≤ c.toNat && c.toNat ≤ 90

/-- The `Credentials` struct of `config.rs`: a username/token pair. -/
structure Credentials where
  username : String
  token : String
  deriving DecidableEq, Repr

/-- Model of `Credentials::from_string` of `config.rs`: split the input on `:`;
exactly two parts are required, the first becomes the username and the
second the token; any other number of parts is a format error. -/
def Credentials.from_string (credentials : String) : Except String Credentials :=
  match splitChar ':' credentials.data with
  | [u, t] => .ok ⟨String.mk u, String.mk t⟩
  | _ => .error "Invalid credentials format. Expected username:token"

/-- Model of `Credentials::load` of `config.rs`.  The process environment before and
after the `dotenv()` call are passed explicitly as key-to-value functions
(`env` models `env::var` before `dotenv().ok()` runs, `envAfterDotenv`
models it afterwards); the CLI argument is the `Option String`. -/
def Credentials.load (cliCredentials : Option String)
    (env : String → Option String) (envAfterDotenv : String → Option String) :
    Except String Credentials :=
  match cliCredentials with
  | some credsStr => Credentials.from_string credsStr
  | none =>
    match env "AZURE_USERNAME", env "AZURE_TOKEN" with
    | some username, some token => .ok ⟨username, token⟩
    | _, _ =>
      match envAfterDotenv "AZURE_USERNAME", envAfterDotenv "AZURE_TOKEN" with
      | some username, some token => .ok ⟨username, token⟩
      | _, _ => .error "Credentials not found in environment or .env file"

/-! ## Semantic versions

`config.rs` calls `semver::Version::parse` and compares the parsed values.
The `semver` dependency (and the `Cargo.toml` pinning it) is not part of
`src/`, so the parser and the equality are modelled from the spec: parsing
follows the standard semver grammar
(`major.minor.patch[-prerelease][+build]`, numeric components without
leading zeros), and equality compares major, minor, patch and the
prerelease identifiers while ignoring build metadata. -/

/-- A parsed semantic version.  The prerelease and build parts are kept as
their raw strings (dot-separated identifier lists are equal iff the raw
strings are equal, so nothing is lost for equality). -/
structure Version where
  major : Nat
  minor : Nat
  patch : Nat
  pre : String
  build : String
  deriving DecidableEq, Repr

/-- The numeric value of a string of decimal digits. -/
def natOfDigits (ds : List Char) : Nat :=
  ds.foldl (fun n c => n * 10 + (c.toNat - 48)) 0

/-- Characters allowed in semver prerelease/build identifiers. -/
def isIdentChar (c : Char) : Bool :=
  c.isDigit || c.isAlpha || c == '-'

/-- A semver numeric identifier: a nonempty digit string with no leading
zero (except `"0"` itself). -/
def isNumericId (ds : List Char) : Bool :=
  !ds.isEmpty && ds.all Char.isDigit && (ds.length == 1 || ds.head? != some '0')

/-- A semver prerelease identifier: nonempty, made of identifier
characters, and if purely numeric then without leading zeros. -/
def isPreId (ds : List Char) : Bool :=
  if ds.all Char.isDigit then isNumericId ds else !ds.isEmpty && ds.all isIdentChar

/-- A semver build identifier: nonempty and made of identifier characters
(leading zeros are allowed here). -/
def isBuildId (ds : List Char) : Bool :=
  !ds.isEmpty && ds.all isIdentChar

/-- Modelled from the spec: validate a prerelease part (dot-separated
prerelease identifiers) and return it as a string. -/
def parsePre (cs : List Char) : Option String :=
  if (splitChar '.' cs).all isPreId then some (String.mk cs) else none

/-- Modelled from the spec: validate a build-metadata part (dot-separated
build identifiers) and return it as a string. -/
def parseBuild (cs : List Char) : Option String :=
  if (splitChar '.' cs).all isBuildId then some (String.mk cs) else none

/-- Modelled from the spec: parse what follows the `major.minor.patch`
core: nothing, `-prerelease`, `+build`, or `-prerelease+build`. -/
def parseTail (cs : List Char) : Option (String × String) :=
  match cs with
  | [] => some ("", "")
  | '-' :: rest =>
    let preChars := rest.takeWhile (fun c => c != '+')
    match parsePre preChars, rest.dropWhile (fun c => c != '+') with
    | some p, [] => some (p, "")
    | some p, _ :: bs => (parseBuild bs).map (fun b => (p, b))
    | none, _ => none
  | '+' :: rest => (parseBuild rest).map (fun b => ("", b))
  | _ => none

/-- Modelled from the spec: `semver::Version::parse` (the `semver` crate is
not under `src/`), following the standard semver grammar: three
dot-separated numeric identifiers, then an optional `-prerelease` and an
optional `+build`; anything else fails. -/
def parseVersion (s : String) : Option Version :=
  let cs := s.data
  let majDs := cs.takeWhile Char.isDigit
  if isNumericId majDs then
    match cs.dropWhile Char.isDigit with
    | '.' :: r2 =>
      let minDs := r2.takeWhile Char.isDigit
      if isNumericId minDs then
        match r2.dropWhile Char.isDigit with
        | '.' :: r4 =>
          let patDs := r4.takeWhile Char.isDigit
          if isNumericId patDs then
            match parseTail (r4.dropWhile Char.isDigit) with
            | some (p, b) =>
              some ⟨natOfDigits majDs, natOfDigits minDs, natOfDigits patDs, p, b⟩
            | none => none
          else none
        | _ => none
      else none
    | _ => none
  else none

/-- Modelled from the spec: semantic-version equality — major, minor,
patch and prerelease identifiers must all match; build metadata is ignored
by semver equality. -/
def semverEq (v1 v2 : Version) : Bool :=
  v1.major == v2.major && v1.minor == v2.minor && v1.patch == v2.patch && v1.pre == v2.pre

/-- The `normalize` closure inside `version_eq` of `config.rs`: a string of
only ASCII digits gets `.0.0` appended, a string containing exactly one `.`
gets `.0` appended, anything else passes through unchanged. -/
def rustNormalize (v : String) : String :=
  if v.data.all Char.isDigit then v ++ ".0.0"
  else if v.data.count '.' = 1 then v ++ ".0"
  else v

/-- Model of `VersionCompare::version_eq` of `config.rs`: normalize both inputs,
parse both as semver; if both parse, compare the parsed versions, otherwise
fall back to string equality of the original inputs. -/
def version_eq (a b : String) : Bool :=
  match parseVersion (rustNormalize a), parseVersion (rustNormalize b) with
  | some v1, some v2 => semverEq v1 v2
  | _, _ => a == b

/-! ## Task-state store

The types `GitVersionState`, `SupportedTask` and `TaskValidState` are
declared in the crate root (`crate::`), not under `src/`; their shapes are
taken from their uses in `config.rs` and the spec's data model (a
setup/execute pair for the special task, a single version string per state
for generic tasks). -/

/-- One valid state of the special `gitversion` task: a setup version and
an execute version. -/
structure GitVersionState where
  setup_version : String
  execute_version : String
  deriving DecidableEq, Repr

/-- The `SupportedTask` task identity: the special `gitversion` task, or a
generic task identified by name. -/
inductive SupportedTask where
  | Gitversion
  | Default (name : String)
  deriving DecidableEq, Repr

/-- A valid state of a task: a `GitVersionState` for the special task, or a
single version string for a generic task. -/
inductive TaskValidState where
  | Gitversion (state : GitVersionState)
  | Default (version : String)
  deriving DecidableEq, Repr

/-- The `TaskStates` struct of `config.rs`.  `other_tasks` is the
`HashMap<String, Vec<String>>`, modelled as an association list whose order
is the (unspecified) iteration order of the map. -/
structure TaskStates where
  gitversion : List GitVersionState
  other_tasks : List (String × List String)
  deriving DecidableEq, Repr

/-- The `Config` struct of `config.rs`. -/
structure Config where
  task_states : TaskStates
  deriving DecidableEq, Repr

/-- Model of `HashMap::insert`: replace the value of an existing key, otherwise add
the new entry. -/
def hashMapInsert (m : List (String × List String)) (k : String) (v : List String) :
    List (String × List String) :=
  match m with
  | [] => [(k, v)]
  | p :: rest => if p.1 = k then (k, v) :: rest else p :: hashMapInsert rest k v

/-- Collecting an iterator of key/value pairs into a `HashMap`: entries are
inserted in iteration order, so a later entry with the same key overwrites
an earlier one. -/
def hashMapFromList (entries : List (String × List String)) :
    List (String × List String) :=
  entries.foldl (fun m p => hashMapInsert m p.1 p.2) []

/-- Model of `Config::normalize_task_names` of `config.rs`: rebuild `other_tasks`
with every key lowercased.  `entries` is the iteration sequence of the
original map (Rust `HashMap` iteration order is unspecified, so it is an
explicit parameter here). -/
def normalize_task_names (entries : List (String × List String)) :
    List (String × List String) :=
  hashMapFromList (entries.map (fun p => (rustToLowercase p.1, p.2)))

/-- Model of `Config::get_valid_states` of `config.rs`: all states for the special
task, the mapped version list for a known generic task, and the empty list
for an unknown generic task. -/
def get_valid_states (c : Config) (task : SupportedTask) : List TaskValidState :=
  match task with
  | .Gitversion => c.task_states.gitversion.map TaskValidState.Gitversion
  | .Default name =>
    match c.task_states.other_tasks.lookup name with
    | some versions => versions.map TaskValidState.Default
    | none => []

/-- Model of `Config::get_all_tasks` of `config.rs`: the special task followed by
one generic task per key of `other_tasks`, in map order. -/
def get_all_tasks (c : Config) : List SupportedTask :=
  SupportedTask.Gitversion :: c.task_states.other_tasks.map (fun p => SupportedTask.Default p.1)

/-- Model of `Config::is_valid_version` of `config.rs`: for a task whose lowercased
name is `gitversion`, exact string equality against any stored setup or
execute version; otherwise an exact-case lookup in `other_tasks` followed
by exact string membership in the version list. -/
def is_valid_version (c : Config) (task : String) (version : String) : Bool :=
  if rustToLowercase task == "gitversion" then
    c.task_states.gitversion.any
      (fun state => version == state.setup_version || version == state.execute_version)
  else
    match c.task_states.other_tasks.lookup task with
    | some versions => versions.contains version
    | none => false

/-! ## Helper lemmas -/

theorem splitChar_ne_nil (sep : Char) (l : List Char) : splitChar sep l ≠ [] := by
  cases l with
  | nil => simp [splitChar]
  | cons c cs =>
    by_cases h : c = sep
    · simp [splitChar, h]
    · simp only [splitChar, if_neg h]
      cases splitChar sep cs <;> simp

theorem splitChar_length (sep : Char) (l : List Char) :
    (splitChar sep l).length = l.count sep + 1 := by
  induction l with
  | nil => simp [splitChar]
  | cons c cs ih =>
    by_cases h : c = sep
    · simp [splitChar, h, List.count_cons]
      omega
    · have hne := splitChar_ne_nil sep cs
      simp only [splitChar, if_neg h]
      cases hsp : splitChar sep cs with
      | nil => exact absurd hsp hne
      | cons p ps =>
        rw [hsp] at ih
        simp only [List.length_cons] at ih ⊢
        have hcnt : (c :: cs).count sep = cs.count sep := by
          simp [List.count_cons, h]
        omega

theorem splitChar_of_not_mem (sep : Char) (l : List Char) (h : sep ∉ l) :
    splitChar sep l = [l] := by
  induction l with
  | nil => rfl
  | cons c cs ih =>
    have hc : ¬c = sep := fun hc => h (hc ▸ List.mem_cons_self c cs)
    have hcs : sep ∉ cs := fun hm => h (List.mem_cons_of_mem c hm)
    simp only [splitChar, if_neg hc, ih hcs]

theorem splitChar_append (sep : Char) (a b : List Char) (h : sep ∉ a) :
    splitChar sep (a ++ sep :: b) = a :: splitChar sep b := by
  induction a with
  | nil => simp [splitChar]
  | cons c cs ih =>
    have hc : ¬c = sep := fun hc => h (hc ▸ List.mem_cons_self c cs)
    have hcs : sep ∉ cs := fun hm => h (List.mem_cons_of_mem c hm)
    simp only [List.cons_append, splitChar, if_neg hc, List.append_eq, ih hcs]

theorem data_append (a b : String) : (a ++ b).data = a.data ++ b.data := rfl

theorem from_string_eq_ok (a b : String) (ha : ':' ∉ a.data) (hb : ':' ∉ b.data) :
    Credentials.from_string (a ++ ":" ++ b) = .ok ⟨a, b⟩ := by
  have hdata : (a ++ ":" ++ b).data = a.data ++ ':' :: b.data := by
    simp [data_append]
  have hsp : splitChar ':' (a ++ ":" ++ b).data = [a.data, b.data] := by
    rw [hdata, splitChar_append ':' a.data b.data ha, splitChar_of_not_mem ':' b.data hb]
  unfold Credentials.from_string
  rw [hsp]

theorem from_string_isOk_iff (s : String) :
    (Credentials.from_string s).isOk = true ↔ s.data.count ':' = 1 := by
  have hlen := splitChar_length ':' s.data
  unfold Credentials.from_string
  cases hsp : splitChar ':' s.data with
  | nil => exact absurd hsp (splitChar_ne_nil ':' s.data)
  | cons u rest =>
    cases rest with
    | nil =>
      rw [hsp] at hlen
      simp only [List.length_cons, List.length_nil] at hlen
      simp [Except.isOk, Except.toBool]
      omega
    | cons t rest2 =>
      cases rest2 with
      | nil =>
        rw [hsp] at hlen
        simp only [List.length_cons, List.length_nil] at hlen
        simp [Except.isOk, Except.toBool]
        omega
      | cons w rest3 =>
        rw [hsp] at hlen
        simp only [List.length_cons, List.length_nil] at hlen
        simp [Except.isOk, Except.toBool]
        omega

theorem from_string_eq_error (s : String) (h : s.data.count ':' ≠ 1) :
    Credentials.from_string s = .error "Invalid credentials format. Expected username:token" := by
  have hlen := splitChar_length ':' s.data
  unfold Credentials.from_string
  cases hsp : splitChar ':' s.data with
  | nil => exact absurd hsp (splitChar_ne_nil ':' s.data)
  | cons u rest =>
    cases rest with
    | nil => rfl
    | cons t rest2 =>
      cases rest2 with
      | nil =>
        rw [hsp] at hlen
        simp only [List.length_cons, List.length_nil] at hlen
        omega
      | cons w rest3 => rfl

theorem toLower_isAsciiUpper_false (c : Char) : isAsciiUpper (Char.toLower c) = false := by
  by_cases h : 65 ≤ c.toNat ∧ c.toNat ≤ 90
  · have hlow : Char.toLower c = Char.ofNat (c.toNat + 32) := by
      simp only [Char.toLower]
      rw [if_pos ⟨h.1, h.2⟩]
    rw [hlow]
    obtain ⟨h1, h2⟩ := h
    generalize c.toNat = n at h1 h2
    interval_cases n <;> decide
  · have hlow : Char.toLower c = c := by
      simp only [Char.toLower]
      rw [if_neg (by exact fun hc => h ⟨hc.1, hc.2⟩)]
    rw [hlow]
    simp only [isAsciiUpper, Bool.and_eq_false_iff, decide_eq_false_iff_not]
    omega

theorem rustToLowercase_no_upper (s : String) :
    (rustToLowercase s).data.any isAsciiUpper = false := by
  show (s.data.map Char.toLower).any isAsciiUpper = false
  simp only [List.any_map, List.any_eq_false, Function.comp]
  intro c _
  simp [toLower_isAsciiUpper_false c]

theorem mem_hashMapInsert (m : List (String × List String)) (k : String)
    (v : List String) (p : String × List String) (h : p ∈ hashMapInsert m k v) :
    p = (k, v) ∨ p ∈ m := by
  induction m with
  | nil =>
    simp [hashMapInsert] at h
    exact Or.inl h
  | cons q rest ih =>
    simp only [hashMapInsert] at h
    by_cases hq : q.1 = k
    · rw [if_pos hq] at h
      rcases List.mem_cons.mp h with h1 | h1
      · exact Or.inl h1
      · exact Or.inr (List.mem_cons_of_mem q h1)
    · rw [if_neg hq] at h
      rcases List.mem_cons.mp h with h1 | h1
      · exact Or.inr (h1 ▸ List.mem_cons_self q rest)
      · rcases ih h1 with h2 | h2
        · exact Or.inl h2
        · exact Or.inr (List.mem_cons_of_mem q h2)

theorem mem_foldl_hashMapInsert (l m : List (String × List String))
    (p : String × List String)
    (h : p ∈ l.foldl (fun m q => hashMapInsert m q.1 q.2) m) :
    p ∈ m ∨ p ∈ l := by
  induction l generalizing m with
  | nil => exact Or.inl h
  | cons q rest ih =>
    simp only [List.foldl_cons] at h
    rcases ih (hashMapInsert m q.1 q.2) h with h1 | h1
    · rcases mem_hashMapInsert m q.1 q.2 p h1 with h2 | h2
      · exact Or.inr (h2 ▸ List.mem_cons_self q rest)
      · exact Or.inl h2
    · exact Or.inr (List.mem_cons_of_mem q h1)

theorem mem_hashMapFromList (l : List (String × List String))
    (p : String × List String) (h : p ∈ hashMapFromList l) : p ∈ l := by
  rcases mem_foldl_hashMapInsert l [] p h with h1 | h1
  · exact absurd h1 (List.not_mem_nil p)
  · exact h1

theorem lookup_hashMapInsert (m : List (String × List String)) (k a : String)
    (v : List String) :
    (hashMapInsert m k v).lookup a = if a = k then some v else m.lookup a := by
  induction m with
  | nil =>
    by_cases h : a = k
    · simp [hashMapInsert, List.lookup, beq_iff_eq.mpr h, h]
    · simp [hashMapInsert, List.lookup, beq_eq_false_iff_ne.mpr h, h]
  | cons q rest ih =>
    obtain ⟨j, w⟩ := q
    simp only [hashMapInsert]
    by_cases hq : j = k
    · rw [if_pos hq]
      by_cases h : a = k
      · simp [List.lookup, beq_iff_eq.mpr h, h]
      · have haj : (a == j) = false := beq_eq_false_iff_ne.mpr (fun he => h (he.trans hq))
        have hak : (a == k) = false := beq_eq_false_iff_ne.mpr h
        simp [List.lookup, haj, hak, h]
    · rw [if_neg hq]
      by_cases haj : a = j
      · have hak : ¬a = k := fun he => hq (haj.symm.trans he)
        simp [List.lookup, beq_iff_eq.mpr haj, hak]
      · have hajf : (a == j) = false := beq_eq_false_iff_ne.mpr haj
        simp [List.lookup, hajf, ih]

theorem lookup_append (l1 l2 : List (String × List String)) (a : String) :
    (l1 ++ l2).lookup a = ((l1.lookup a).orElse (fun _ => l2.lookup a)) := by
  induction l1 with
  | nil => simp [List.lookup, Option.orElse]
  | cons q rest ih =>
    obtain ⟨j, w⟩ := q
    by_cases h : a = j
    · simp [List.lookup, beq_iff_eq.mpr h, Option.orElse]
    · simp [List.lookup, beq_eq_false_iff_ne.mpr h, ih]

theorem lookup_foldl_hashMapInsert (l m : List (String × List String)) (a : String) :
    (l.foldl (fun m q => hashMapInsert m q.1 q.2) m).lookup a =
      ((l.reverse.lookup a).orElse (fun _ => m.lookup a)) := by
  induction l generalizing m with
  | nil => simp [Option.orElse]
  | cons q rest ih =>
    simp only [List.foldl_cons, List.reverse_cons]
    rw [ih, lookup_append, lookup_hashMapInsert]
    obtain ⟨j, w⟩ := q
    cases hr : rest.reverse.lookup a with
    | some u => simp [hr, Option.orElse]
    | none =>
      by_cases h : a = j
      · simp [hr, Option.orElse, List.lookup, beq_iff_eq.mpr h, h]
      · simp [hr, Option.orElse, List.lookup, beq_eq_false_iff_ne.mpr h, h]

theorem lookup_hashMapFromList (l : List (String × List String)) (a : String) :
    (hashMapFromList l).lookup a = l.reverse.lookup a := by
  rw [hashMapFromList, lookup_foldl_hashMapInsert]
  cases hr : l.reverse.lookup a <;> simp [Option.orElse, List.lookup]

theorem lookup_eq_none_of_keys_ne (l : List (String × List String)) (a : String)
    (h : ∀ p ∈ l, p.1 ≠ a) : l.lookup a = none := by
  induction l with
  | nil => rfl
  | cons q rest ih =>
    have hq : ¬a = q.1 := fun he => h q (List.mem_cons_self q rest) he.symm
    simp only [List.lookup, beq_eq_false_iff_ne.mpr hq]
    exact ih (fun p hp => h p (List.mem_cons_of_mem q hp))

theorem mem_of_lookup_eq_some (l : List (String × List String)) (a : String)
    (v : List String) (h : l.lookup a = some v) : (a, v) ∈ l := by
  induction l with
  | nil => simp [List.lookup] at h
  | cons q rest ih =>
    obtain ⟨k, w⟩ := q
    by_cases hq : a = k
    · simp only [List.lookup, beq_iff_eq.mpr hq, Option.some.injEq] at h
      exact (by rw [hq, h] : (a, v) = (k, w)) ▸ List.mem_cons_self (k, w) rest
    · simp only [List.lookup, beq_eq_false_iff_ne.mpr hq] at h
      exact List.mem_cons_of_mem (k, w) (ih h)

theorem count_default_map (l : List (String × List String)) (name : String) :
    (l.map (fun p => SupportedTask.Default p.1)).count (SupportedTask.Default name) =
      (l.map Prod.fst).count name := by
  induction l with
  | nil => rfl
  | cons q rest ih =>
    by_cases h : q.1 = name <;> simp [List.map_cons, List.count_cons, ih, h]

theorem count_nodup (l : List String) (h : l.Nodup) (a : String) :
    l.count a = if a ∈ l then 1 else 0 := by
  induction l with
  | nil => simp
  | cons b rest ih =>
    rw [List.nodup_cons] at h
    by_cases hab : a = b
    · subst hab
      simp [List.count_cons, List.count_eq_zero.mpr h.1]
    · simp [List.count_cons, hab, ih h.2, Ne.symm hab]

theorem lookup_normalize_none (entries : List (String × List String)) (t : String)
    (h : t.data.any isAsciiUpper = true) :
    (normalize_task_names entries).lookup t = none := by
  apply lookup_eq_none_of_keys_ne
  intro p hp hpt
  have hmem := mem_hashMapFromList _ p hp
  obtain ⟨q, _, hq⟩ := List.mem_map.mp hmem
  have hupper : p.1.data.any isAsciiUpper = false := by
    rw [← hq]
    exact rustToLowercase_no_upper q.1
  rw [hpt, h] at hupper
  exact absurd hupper (by decide)

/-! ## Claims -/

/-- C8: `version_eq` is reflexive: for every string `v`, `version_eq v v`
is true. -/
theorem c8_version_eq_refl (v : String) : version_eq v v = true := by
  simp only [version_eq]
  cases h : parseVersion (rustNormalize v) with
  | none => simp
  | some v1 => simp [semverEq]

/-- C4: `version_eq` first normalizes each input independently (all ASCII
digits: append `.0.0`; exactly one dot: append `.0`; otherwise unchanged),
then parses each as semver; if either parse fails it falls back to exact
string equality of the original inputs; consequently
`version_eq "1" "1.0.0"`, `version_eq "1.0" "1.0.0"` and
`version_eq "1.x" "1.x"` are true and `version_eq "1.0.0" "1.0.1"` is
false. -/
theorem c4_normalize_parse_fallback (a b v : String) :
    (v.data.all Char.isDigit = true → rustNormalize v = v ++ ".0.0") ∧
    (v.data.count '.' = 1 → rustNormalize v = v ++ ".0") ∧
    (v.data.all Char.isDigit = false → v.data.count '.' ≠ 1 → rustNormalize v = v) ∧
    (∀ va vb : Version, parseVersion (rustNormalize a) = some va →
      parseVersion (rustNormalize b) = some vb → version_eq a b = semverEq va vb) ∧
    ((parseVersion (rustNormalize a) = none ∨ parseVersion (rustNormalize b) = none) →
      version_eq a b = (a == b)) ∧
    version_eq "1" "1.0.0" = true ∧
    version_eq "1.0" "1.0.0" = true ∧
    version_eq "1.0.0" "1.0.1" = false ∧
    version_eq "1.x" "1.x" = true := by
  refine ⟨?_, ?_, ?_, ?_, ?_, rfl, rfl, rfl, rfl⟩
  · intro h
    simp [rustNormalize, h]
  · intro h
    have hdot : '.' ∈ v.data := by
      have : 0 < v.data.count '.' := by omega
      exact List.count_pos_iff.mp this
    have hall : v.data.all Char.isDigit = false := by
      cases hc : v.data.all Char.isDigit with
      | false => rfl
      | true => exact absurd (List.all_eq_true.mp hc '.' hdot) (by decide)
    simp [rustNormalize, hall, h]
  · intro h1 h2
    simp [rustNormalize, h1, h2]
  · intro va vb ha hb
    simp [version_eq, ha, hb]
  · intro h
    simp only [version_eq]
    rcases h with h | h
    · rw [h]
    · rw [h]
      cases parseVersion (rustNormalize a) <;> rfl

/-- C4 witness: the theorem applied at concrete inputs, each hypothesis
discharged by evaluation. -/
theorem c4_witness :
    rustNormalize "7" = "7" ++ ".0.0" ∧
    rustNormalize "1.2" = "1.2" ++ ".0" ∧
    rustNormalize "1.x.y" = "1.x.y" ∧
    version_eq "1" "1.0.0" = semverEq ⟨1, 0, 0, "", ""⟩ ⟨1, 0, 0, "", ""⟩ ∧
    version_eq "1.x" "1.x" = ("1.x" == "1.x") :=
  ⟨(c4_normalize_parse_fallback "1" "1.0.0" "7").1 (by decide),
   (c4_normalize_parse_fallback "1" "1.0.0" "1.2").2.1 (by decide),
   (c4_normalize_parse_fallback "1" "1.0.0" "1.x.y").2.2.1 (by decide) (by decide),
   (c4_normalize_parse_fallback "1" "1.0.0" "7").2.2.2.1 ⟨1, 0, 0, "", ""⟩ ⟨1, 0, 0, "", ""⟩
     (by decide) (by decide),
   (c4_normalize_parse_fallback "1.x" "1.x" "7").2.2.2.2.1 (Or.inl (by decide))⟩

/-- C1: when both normalized inputs parse as semantic versions,
`version_eq` holds iff major, minor, patch and prerelease all match, with
build metadata ignored; in particular
`version_eq "1.0.0+build1" "1.0.0+build2"` is true. -/
theorem c1_semver_equality_ignores_build (a b : String) (va vb : Version)
    (ha : parseVersion (rustNormalize a) = some va)
    (hb : parseVersion (rustNormalize b) = some vb) :
    (version_eq a b = true ↔
      va.major = vb.major ∧ va.minor = vb.minor ∧ va.patch = vb.patch ∧ va.pre = vb.pre) ∧
    version_eq "1.0.0+build1" "1.0.0+build2" = true := by
  constructor
  · simp [version_eq, ha, hb, semverEq, Bool.and_eq_true, beq_iff_eq, and_assoc]
  · rfl

/-- C1 witness: the theorem applied at the two build-metadata inputs. -/
theorem c1_witness : version_eq "1.0.0+build1" "1.0.0+build2" = true :=
  (c1_semver_equality_ignores_build "1.0.0+build1" "1.0.0+build2"
    ⟨1, 0, 0, "", "build1"⟩ ⟨1, 0, 0, "", "build2"⟩ (by decide) (by decide)).2

/-- C10: `Credentials::from_string` succeeds iff its input contains exactly
one `:`; on success the username is the part before the colon and the token
the part after, with no non-emptiness validation, so `from_string ":"`
succeeds with empty username and token. -/
theorem c10_from_string_exact_one_colon (s a b : String)
    (ha : ':' ∉ a.data) (hb : ':' ∉ b.data) :
    ((Credentials.from_string s).isOk = true ↔ s.data.count ':' = 1) ∧
    Credentials.from_string (a ++ ":" ++ b) = .ok ⟨a, b⟩ ∧
    Credentials.from_string ":" = .ok ⟨"", ""⟩ :=
  ⟨from_string_isOk_iff s, from_string_eq_ok a b ha hb, rfl⟩

/-- C10 witness: the theorem applied at concrete credential strings. -/
theorem c10_witness :
    Credentials.from_string ("user" ++ ":" ++ "token") = .ok ⟨"user", "token"⟩ :=
  (c10_from_string_exact_one_colon ":" "user" "token" (by decide) (by decide)).2.1

/-- C5: with a CLI argument supplied, `Credentials::load` is decided by the
argument alone (the environment is never consulted): it equals
`from_string`, which requires exactly one `:`-separated pair, and the
argument `"user"` yields a format error whatever the environment holds. -/
theorem c5_credentials_argument_priority
    (env envAfter env2 envAfter2 : String → Option String) (s a b : String)
    (ha : ':' ∉ a.data) (hb : ':' ∉ b.data) :
    Credentials.load (some s) env envAfter = Credentials.from_string s ∧
    Credentials.load (some s) env envAfter = Credentials.load (some s) env2 envAfter2 ∧
    Credentials.load (some (a ++ ":" ++ b)) env envAfter = .ok ⟨a, b⟩ ∧
    (s.data.count ':' ≠ 1 → Credentials.load (some s) env envAfter =
      .error "Invalid credentials format. Expected username:token") ∧
    Credentials.load (some "user") env envAfter =
      .error "Invalid credentials format. Expected username:token" := by
  refine ⟨rfl, rfl, ?_, ?_, ?_⟩
  · exact from_string_eq_ok a b ha hb
  · intro h
    exact from_string_eq_error s h
  · rfl

/-- C5 witness: the theorem applied with an environment that has both
variables set; the malformed argument still wins and fails. -/
theorem c5_witness :
    Credentials.load (some "user")
      (fun k => if k = "AZURE_USERNAME" then some "envuser" else some "envtoken")
      (fun _ => none) =
      .error "Invalid credentials format. Expected username:token" :=
  (c5_credentials_argument_priority
    (fun k => if k = "AZURE_USERNAME" then some "envuser" else some "envtoken")
    (fun _ => none) (fun _ => none) (fun _ => none) "user" "u" "t"
    (by decide) (by decide)).2.2.2.2

/-- C6: `get_valid_states` on a generic task whose name has no entry in the
generic mapping returns the empty list (and, being total, never an error). -/
theorem c6_unknown_generic_task_empty (c : Config) (name : String)
    (h : c.task_states.other_tasks.lookup name = none) :
    get_valid_states c (SupportedTask.Default name) = [] := by
  simp [get_valid_states, h]

/-- C6 witness: the theorem applied at a concrete configuration. -/
theorem c6_witness :
    get_valid_states ⟨⟨[⟨"5.0.0", "5.10.3"⟩], [("task1", ["1.0"])]⟩⟩
      (SupportedTask.Default "unknown") = [] :=
  c6_unknown_generic_task_empty ⟨⟨[⟨"5.0.0", "5.10.3"⟩], [("task1", ["1.0"])]⟩⟩
    "unknown" (by decide)

/-- C7: `get_all_tasks` returns the special task plus exactly one generic
task per key of the generic mapping: its length is `1 +` the number of
keys, it contains the special task exactly once, and each key contributes
exactly one `Default` entry. -/
theorem c7_get_all_tasks (c : Config)
    (h : (c.task_states.other_tasks.map Prod.fst).Nodup) :
    (get_all_tasks c).length = 1 + c.task_states.other_tasks.length ∧
    (get_all_tasks c).count SupportedTask.Gitversion = 1 ∧
    ∀ name : String, (get_all_tasks c).count (SupportedTask.Default name) =
      if name ∈ c.task_states.other_tasks.map Prod.fst then 1 else 0 := by
  refine ⟨?_, ?_, ?_⟩
  · simp [get_all_tasks, Nat.add_comm]
  · show (SupportedTask.Gitversion ::
      c.task_states.other_tasks.map (fun p => SupportedTask.Default p.1)).count
        SupportedTask.Gitversion = 1
    rw [List.count_cons_self]
    have : (c.task_states.other_tasks.map
        (fun p => SupportedTask.Default p.1)).count SupportedTask.Gitversion = 0 := by
      rw [List.count_eq_zero]
      simp [List.mem_map]
    omega
  · intro name
    show (SupportedTask.Gitversion ::
      c.task_states.other_tasks.map (fun p => SupportedTask.Default p.1)).count
        (SupportedTask.Default name) = _
    rw [List.count_cons]
    simp only [beq_iff_eq, reduceCtorEq, if_false]
    rw [count_default_map, count_nodup _ h]
    exact Nat.add_zero _

/-- C7 witness: the theorem applied at a concrete two-key configuration. -/
theorem c7_witness :
    (get_all_tasks ⟨⟨[], [("a", ["1"]), ("b", ["2"])]⟩⟩).count
      SupportedTask.Gitversion = 1 :=
  (c7_get_all_tasks ⟨⟨[], [("a", ["1"]), ("b", ["2"])]⟩⟩ (by decide)).2.1

/-- C3: `is_valid_version` on a task whose lowercased name is
`"gitversion"` is exact string equality against any stored setup or execute
version; on any other task it is an exact-case lookup in the generic
mapping followed by exact membership in that version list, false when the
key is absent. -/
theorem c3_is_valid_version_exact (c : Config) (t v : String) :
    (rustToLowercase t = "gitversion" →
      (is_valid_version c t v = true ↔
        ∃ state ∈ c.task_states.gitversion,
          v = state.setup_version ∨ v = state.execute_version)) ∧
    (rustToLowercase t ≠ "gitversion" →
      (is_valid_version c t v = true ↔
        ∃ versions, c.task_states.other_tasks.lookup t = some versions ∧ v ∈ versions)) := by
  constructor
  · intro h
    simp [is_valid_version, beq_iff_eq.mpr h, List.any_eq_true, Bool.or_eq_true, beq_iff_eq]
  · intro h
    simp only [is_valid_version, beq_eq_false_iff_ne.mpr h, Bool.false_eq_true, if_false]
    cases hl : c.task_states.other_tasks.lookup t with
    | none => simp
    | some versions => simp [List.contains, List.elem_iff]

/-- C3 witness: the theorem applied at a concrete configuration, both for
the special task (case-insensitively) and for a generic task. -/
theorem c3_witness :
    is_valid_version ⟨⟨[⟨"5.0.0", "5.10.3"⟩], []⟩⟩ "GitVersion" "5.10.3" = true := by
  have h := (c3_is_valid_version_exact ⟨⟨[⟨"5.0.0", "5.10.3"⟩], []⟩⟩
    "GitVersion" "5.10.3").1 (by decide)
  exact h.mpr ⟨⟨"5.0.0", "5.10.3"⟩, by decide, Or.inr rfl⟩

/-- C9: once the generic keys have been lowercased by
`normalize_task_names`, a task name containing an uppercase ASCII letter
whose lowercase form is not `"gitversion"` is never valid: the exact-case
lookup cannot hit a lowercased key. -/
theorem c9_uppercase_name_never_valid (gv : List GitVersionState)
    (entries : List (String × List String)) (t v : String)
    (h1 : t.data.any isAsciiUpper = true)
    (h2 : rustToLowercase t ≠ "gitversion") :
    is_valid_version ⟨⟨gv, normalize_task_names entries⟩⟩ t v = false := by
  simp [is_valid_version, beq_eq_false_iff_ne.mpr h2, lookup_normalize_none entries t h1]

/-- C9 witness: the theorem applied at a configuration that originally
contained the key `"MyTask"`. -/
theorem c9_witness :
    is_valid_version ⟨⟨[], normalize_task_names [("MyTask", ["1.0"])]⟩⟩
      "MyTask" "1.0" = false :=
  c9_uppercase_name_never_valid [] [("MyTask", ["1.0"])] "MyTask" "1.0"
    (by decide) (by decide)

/-- C2 (amended): `normalize_task_names` rewrites every surviving key to
the lowercased form of an original key, and a lookup in the result returns
the value of the last entry in the map's iteration order whose key
lowercases to the looked-up key — so on a lowercase collision exactly one
entry survives, with no error, but which one is decided by the unspecified
iteration order, not by document position. -/
theorem c2_normalize_lowercases_last_wins (entries : List (String × List String))
    (k : String) :
    (∀ p ∈ normalize_task_names entries,
      ∃ q ∈ entries, p.1 = rustToLowercase q.1 ∧ p.2 = q.2) ∧
    (normalize_task_names entries).lookup k =
      (entries.map (fun q => (rustToLowercase q.1, q.2))).reverse.lookup k := by
  constructor
  · intro p hp
    have hm := mem_hashMapFromList _ p hp
    obtain ⟨q, hq, he⟩ := List.mem_map.mp hm
    exact ⟨q, hq, by rw [← he], by rw [← he]⟩
  · exact lookup_hashMapFromList _ k

/-- C2 counterexample: it is not the case that for every iteration order of
a map holding original keys `"MyTask"` and `"mytask"` the entry later in
the source document wins; the iteration order that yields `"mytask"` first
leaves the first document entry's list in place. -/
theorem c2_counterexample :
    ¬ ∀ iter : List (String × List String),
        iter.Perm [("MyTask", ["7.0.0"]), ("mytask", ["8.0.0"])] →
        (normalize_task_names iter).lookup "mytask" = some ["8.0.0"] := by
  intro hall
  have h := hall [("mytask", ["8.0.0"]), ("MyTask", ["7.0.0"])] (List.Perm.swap _ _ _)
  exact absurd h (by decide)

/-- C2 witness: the theorem applied at the concrete two-key document. -/
theorem c2_witness :
    (∃ q ∈ [("MyTask", ["7.0.0"]), ("mytask", ["8.0.0"])],
      "mytask" = rustToLowercase q.1 ∧ ["8.0.0"] = q.2) ∧
    (normalize_task_names [("MyTask", ["7.0.0"]), ("mytask", ["8.0.0"])]).lookup
      "mytask" = some ["8.0.0"] := by
  have h := c2_normalize_lowercases_last_wins
    [("MyTask", ["7.0.0"]), ("mytask", ["8.0.0"])] "mytask"
  constructor
  · exact h.1 ("mytask", ["8.0.0"]) (by decide)
  · rw [h.2]
    decide

end CiProbe
